import Mathlib

/-!
# Verification of the ssi-service BoltDB storage substrate

A shallow embedding of the BoltDB-backed key/value storage layer
(`pkg/storage`, package `storage`) of the ssi-service repository, together
with proofs about its transactional contract.

Modelling conventions:
* Go byte slices are modelled as `List Nat` (`Bytes`); Go strings as `String`.
* A Bolt bucket is an association list from keys to values; the database is
  an association list from bucket names (namespaces) to buckets.
* Bolt's `db.Update(fn)` runs `fn` in a writable transaction and rolls the
  transaction back when `fn` returns an error: in the embedding this is
  explicit state passing where the error branch returns the *original*
  store.  `db.View` is a read-only pass over the store.
* The Bolt library's own error conditions that the storage layer can hit
  are modelled where they matter for control flow: `CreateBucketIfNotExists`
  fails on an empty bucket name (`ErrBucketNameRequired`) and `Bucket.Put`
  fails on an empty key (`ErrKeyRequired`).
* A Go panic (out-of-range slice indexing in `WriteMany`) is modelled as a
  distinguished `Outcome.panicked` result; Bolt's deferred rollback still
  restores the store in that case.
-/

namespace SSIStorage

/-- Go `[]byte`, as a list of byte values. -/
abbrev Bytes := List Nat

/-- A Bolt bucket: the key/value pairs stored under one namespace. -/
structure Bucket where
  entries : List (String × Bytes)
  deriving DecidableEq, Repr

/-- Association-list lookup used for `Bucket.Get`. -/
def lookupEntries : List (String × Bytes) → String → Option Bytes
  | [], _ => none
  | (k', v') :: rest, k => if k' = k then some v' else lookupEntries rest k

/-- `Bucket.Get(key)`: `nil` (here `none`) when the key is absent. -/
def Bucket.get (b : Bucket) (k : String) : Option Bytes :=
  lookupEntries b.entries k

/-- Insert-or-replace for bucket entries, keeping one entry per key. -/
def putEntries : List (String × Bytes) → String → Bytes → List (String × Bytes)
  | [], k, v => [(k, v)]
  | (k', v') :: rest, k, v =>
    if k' = k then (k, v) :: rest else (k', v') :: putEntries rest k v

/-- `Bucket.Put(key, value)`: Bolt rejects an empty key (`ErrKeyRequired`). -/
def Bucket.put (b : Bucket) (k : String) (v : Bytes) : Except String Bucket :=
  if k = "" then .error "key required"
  else .ok ⟨putEntries b.entries k v⟩

/-- `Bucket.Delete(key)`: removing an absent key is not an error. -/
def Bucket.del (b : Bucket) (k : String) : Bucket :=
  ⟨b.entries.filter (fun e => e.1 ≠ k)⟩

/-- The BoltDB database state: namespaces (bucket names) mapped to buckets. -/
structure Store where
  buckets : List (String × Bucket)
  deriving DecidableEq, Repr

/-- Association-list lookup for buckets (`tx.Bucket(name)`). -/
def lookupBuckets : List (String × Bucket) → String → Option Bucket
  | [], _ => none
  | (n', b') :: rest, n => if n' = n then some b' else lookupBuckets rest n

/-- `tx.Bucket([]byte(namespace))`: `nil` (here `none`) when absent. -/
def Store.bucket (s : Store) (ns : String) : Option Bucket :=
  lookupBuckets s.buckets ns

/-- Insert-or-replace a bucket under a namespace. -/
def setBuckets : List (String × Bucket) → String → Bucket → List (String × Bucket)
  | [], n, b => [(n, b)]
  | (n', b') :: rest, n, b =>
    if n' = n then (n, b) :: rest else (n', b') :: setBuckets rest n b

/-- Store the bucket `b` under namespace `ns`. -/
def Store.setBucket (s : Store) (ns : String) (b : Bucket) : Store :=
  ⟨setBuckets s.buckets ns b⟩

/-- The store with no namespaces, as produced by opening a fresh database. -/
def emptyStore : Store := ⟨[]⟩

/-- The value visible at `(ns, key)`: `none` when the namespace or key is
absent.  This is the observation the theorems below are phrased in. -/
def readVal (s : Store) (ns key : String) : Option Bytes :=
  (s.bucket ns).bind (fun b => b.get key)

/-- Well-formedness of the embedding: every bucket keeps at most one entry
per key.  Every store reachable through the operations below satisfies it;
it is the invariant under which association-list membership and lookup
agree. -/
def Store.WF (s : Store) : Prop :=
  ∀ nb ∈ s.buckets, ((nb.2.entries.map Prod.fst).Nodup : Prop)

instance (s : Store) : Decidable s.WF := by
  unfold Store.WF; infer_instance

/-- `writeFunc(namespace, key, value)` from the source: create the bucket if
it does not exist (`ErrBucketNameRequired` on an empty name), then `Put`. -/
def writeFunc (ns key : String) (value : Bytes) (s : Store) :
    Except String Store :=
  if ns = "" then .error "bucket name required"
  else
    match ((s.bucket ns).getD ⟨[]⟩).put key value with
    | .error e => .error e
    | .ok b' => .ok (s.setBucket ns b')

/-- `BoltDB.Write`: `db.Update(writeFunc(namespace, key, value))`.  The
transaction rolls back (store unchanged) when the inner function errors. -/
def Write (s : Store) (ns key : String) (value : Bytes) :
    Except String Unit × Store :=
  match writeFunc ns key value s with
  | .error e => (.error e, s)
  | .ok s' => (.ok (), s')

/-- `BoltDB.Read`: a `db.View` returning the bucket's value, or `nil` with a
logged warning (no error) when the namespace is absent. -/
def Read (s : Store) (ns key : String) : Except String (Option Bytes) :=
  match s.bucket ns with
  | none => .ok none
  | some b => .ok (b.get key)

/-- `BoltDB.Delete`: errors when the namespace does not exist, otherwise
deletes the key from the bucket (a no-op when the key is absent). -/
def Delete (s : Store) (ns key : String) : Except String Unit × Store :=
  match s.bucket ns with
  | none => (.error ("namespace<" ++ ns ++ "> does not exist"), s)
  | some b => (.ok (), s.setBucket ns (b.del key))

/-- `BoltDB.ReadPrefix`: a `db.View` collecting every key of the namespace
that has the given prefix (the Bolt cursor seeks to the prefix and scans
while `bytes.HasPrefix` holds); empty map, no error, when the namespace is
absent. -/
def ReadPrefix (s : Store) (ns p : String) :
    Except String (List (String × Bytes)) :=
  match s.bucket ns with
  | none => .ok []
  | some b => .ok (b.entries.filter (fun e => p.isPrefixOf e.1))

/-- Result of a Go function that may return normally, return an error, or
panic. -/
inductive Outcome (α : Type) where
  | ok (a : α)
  | err (e : String)
  | panicked
  deriving DecidableEq, Repr

/-- The length guard of `WriteMany`, exactly as written in the source: the
call is rejected only when `len(namespaces) != len(keys)` AND
`len(namespaces) != len(values)`. -/
def writeManyLengthMismatch (nss ks : List String) (vs : List Bytes) : Prop :=
  nss.length ≠ ks.length ∧ nss.length ≠ vs.length

instance (nss ks : List String) (vs : List Bytes) :
    Decidable (writeManyLengthMismatch nss ks vs) := by
  unfold writeManyLengthMismatch; infer_instance

/-- The loop body of `WriteMany`: for each index `i` in `range namespaces`,
create the bucket and `Put(keys[i], values[i])`.  Indexing `keys[i]` or
`values[i]` past the end of the slice is a Go runtime panic. -/
def writeManyLoop : List String → List String → List Bytes → Store →
    Outcome Store
  | [], _, _, s => .ok s
  | ns :: nss, k :: ks, v :: vs, s =>
    match writeFunc ns k v s with
    | .error e => .err e
    | .ok s' => writeManyLoop nss ks vs s'
  | _ :: _, _, _, _ => .panicked

/-- `BoltDB.WriteMany`: length guard, then one `db.Update` running the write
loop.  An error (or panic) inside the update rolls the transaction back, so
the store component is the original store in those cases. -/
def WriteMany (s : Store) (nss ks : List String) (vs : List Bytes) :
    Outcome Unit × Store :=
  if writeManyLengthMismatch nss ks vs then
    (.err "namespaces, keys, and values, are not of equal length", s)
  else
    match writeManyLoop nss ks vs s with
    | .ok s' => (.ok (), s')
    | .err e => (.err e, s)
    | .panicked => (.panicked, s)

/-- The business-logic function given to `Execute`: it runs against the open
transaction (modelled as the store state) and returns a result and the
transaction state it produced, or an error. -/
abbrev BusinessLogicFunc (α : Type) := Store → Except String (α × Store)

/-- `BoltDB.Execute`: begin a writable transaction, run the business-logic
function, roll back (discarding its writes) when it errors — wrapping the
error — and commit its state otherwise. -/
def Execute {α : Type} (s : Store) (fn : BusinessLogicFunc α) :
    Except String α × Store :=
  match fn s with
  | .error e => (.error ("executing business logic func: " ++ e), s)
  | .ok (r, s') => (.ok r, s')

/-- The `Updater` interface of the source: `Validate` runs after the data is
loaded, `Update` produces the bytes to store.  `UpdaterWithMap` (the JSON
field-map merge used by `BoltDB.Update`) is one instance whose body is the
behaviour of the external JSON library, so update theorems quantify over the
interface. -/
structure Updater where
  validate : Bytes → Except String Unit
  update : Bytes → Except String Bytes

/-- `updateTx(tx, namespace, key, updater)`: error when the namespace or the
key is absent; otherwise validate, compute the updated bytes, and `Put` them
back under the same key. -/
def updateTx (s : Store) (ns key : String) (u : Updater) :
    Except String (Bytes × Store) :=
  match s.bucket ns with
  | none => .error ("namespace<" ++ ns ++ "> does not exist")
  | some b =>
    match b.get key with
    | none => .error ("key not found " ++ key)
    | some v =>
      match u.validate v with
      | .error e => .error e
      | .ok _ =>
        match u.update v with
        | .error e => .error e
        | .ok data =>
          match b.put key data with
          | .error e => .error e
          | .ok b' => .ok (data, s.setBucket ns b')

/-- `BoltDB.Update`: one `db.Update` running `updateTxFn`; the updated bytes
are returned, and the transaction rolls back on error. -/
def Update (s : Store) (ns key : String) (u : Updater) :
    Option Bytes × Except String Unit × Store :=
  match updateTx s ns key u with
  | .error e => (none, .error e, s)
  | .ok (data, s') => (some data, .ok (), s')

/-- `BoltDB.UpdateValueAndOperation`: one `db.Update` that first runs
`updateTx` on `(ns, key)` with `updater`, then hands the updated bytes to the
response-setting op updater (`SetUpdatedResponse`, modelled as the function
argument of `opU`) and runs `updateTx` on `(opNs, opKey)` with it.  An error
in either step rolls the whole transaction back; the `first` return value is
already set when only the second step fails, as in the source. -/
def UpdateValueAndOperation (s : Store) (ns key : String) (u : Updater)
    (opNs opKey : String) (opU : Bytes → Updater) :
    Option Bytes × Option Bytes × Except String Unit × Store :=
  match updateTx s ns key u with
  | .error e => (none, none, .error e, s)
  | .ok (first, s1) =>
    match updateTx s1 opNs opKey (opU first) with
    | .error e => (some first, none, .error e, s)
    | .ok (op, s2) => (some first, some op, .ok (), s2)

/-- An updater that validates everything and stores the bytes unchanged. -/
def idUpdater : Updater := ⟨fun _ => .ok (), fun v => .ok v⟩

end SSIStorage

namespace SSIStatusList

open SSIStorage

/-- Modelled from the spec: the status-list index allocator of §4.3 is not
among the provided source files (only the KV substrate is), so it is
modelled from the spec's words.  Its state is the pre-shuffled permutation
of `1..L` stored under `status-list-indexes` and the 0-based cursor stored
under `current-list-index`. -/
structure AllocatorState where
  permutation : List Nat
  cursor : Nat
  deriving DecidableEq, Repr

/-- Modelled from the spec: `L = 131,072`, the bitstring length. -/
def L : Nat := 131072

/-- Modelled from the spec: `next_index(tx)` returns `P[cursor]` without
advancing; it fails when the cursor is out of the pool. -/
def nextIndex (a : AllocatorState) : Option Nat :=
  a.permutation[a.cursor]?

/-- Modelled from the spec: `increment(tx)` writes `cursor + 1`, failing
with `Exhausted` when the post-increment value exceeds `L`. -/
def increment (a : AllocatorState) : Except String AllocatorState :=
  if a.cursor + 1 > L then .error "Exhausted"
  else .ok { a with cursor := a.cursor + 1 }

/-- An issuance request for a revocable credential: only the (issuer,
schema) pair matters for index uniqueness. -/
structure IssueRequest where
  issuer : String
  schema : String
  deriving DecidableEq, Repr

/-- A successfully issued revocable credential with its assigned revocation
index. -/
structure IssuedCredential where
  issuer : String
  schema : String
  revocationIndex : Nat
  deriving DecidableEq, Repr

/-- Modelled from the spec: issuing one revocable credential inside one
transaction reads `next_index` and advances the cursor; failure of either
step fails the whole issuance with no state change. -/
def issueOne (a : AllocatorState) (r : IssueRequest) :
    Except String (IssuedCredential × AllocatorState) :=
  match nextIndex a with
  | none => .error "Exhausted"
  | some i =>
    match increment a with
    | .error e => .error e
    | .ok a' => .ok (⟨r.issuer, r.schema, i⟩, a')

/-- Modelled from the spec: a sequence of issue operations, all of which
must succeed. -/
def issueAll (a : AllocatorState) :
    List IssueRequest → Except String (List IssuedCredential × AllocatorState)
  | [] => .ok ([], a)
  | r :: rs =>
    match issueOne a r with
    | .error e => .error e
    | .ok (c, a') =>
      match issueAll a' rs with
      | .error e => .error e
      | .ok (cs, a'') => .ok (c :: cs, a'')

end SSIStatusList

namespace SSIStorage

/-! ## Association-list lemmas -/

theorem lookupEntries_putEntries_self (l : List (String × Bytes)) (k : String)
    (v : Bytes) : lookupEntries (putEntries l k v) k = some v := by
  induction l with
  | nil => simp [putEntries, lookupEntries]
  | cons e rest ih =>
    by_cases h : e.1 = k
    · simp [putEntries, lookupEntries, h]
    · simp only [putEntries, h, if_false, lookupEntries, ih]

theorem lookupEntries_putEntries_ne (l : List (String × Bytes)) (k k' : String)
    (v : Bytes) (hne : k' ≠ k) :
    lookupEntries (putEntries l k v) k' = lookupEntries l k' := by
  induction l with
  | nil =>
    simp only [putEntries, lookupEntries]
    rw [if_neg (fun hh => hne hh.symm)]
  | cons e rest ih =>
    by_cases h : e.1 = k
    · simp only [putEntries, h, if_true, lookupEntries]
      rw [if_neg (fun hh => hne hh.symm), if_neg (fun hh => hne hh.symm)]
    · simp only [putEntries, h, if_false, lookupEntries, ih]

theorem lookupBuckets_setBuckets_self (l : List (String × Bucket)) (n : String)
    (b : Bucket) : lookupBuckets (setBuckets l n b) n = some b := by
  induction l with
  | nil => simp [setBuckets, lookupBuckets]
  | cons e rest ih =>
    by_cases h : e.1 = n
    · simp [setBuckets, lookupBuckets, h]
    · simp only [setBuckets, h, if_false, lookupBuckets, ih]

theorem lookupBuckets_setBuckets_ne (l : List (String × Bucket)) (n n' : String)
    (b : Bucket) (hne : n' ≠ n) :
    lookupBuckets (setBuckets l n b) n' = lookupBuckets l n' := by
  induction l with
  | nil =>
    simp only [setBuckets, lookupBuckets]
    rw [if_neg (fun hh => hne hh.symm)]
  | cons e rest ih =>
    by_cases h : e.1 = n
    · simp only [setBuckets, h, if_true, lookupBuckets]
      rw [if_neg (fun hh => hne hh.symm), if_neg (fun hh => hne hh.symm)]
    · simp only [setBuckets, h, if_false, lookupBuckets, ih]

theorem setBuckets_eq_self (l : List (String × Bucket)) (n : String)
    (b : Bucket) (h : lookupBuckets l n = some b) : setBuckets l n b = l := by
  induction l with
  | nil => simp [lookupBuckets] at h
  | cons e rest ih =>
    by_cases he : e.1 = n
    · simp only [lookupBuckets, he, if_true, Option.some.injEq] at h
      simp only [setBuckets, he, if_true]
      rw [← he, ← h]
    · simp only [lookupBuckets, he, if_false] at h
      simp only [setBuckets, he, if_false, ih h]

theorem filter_ne_eq_self (l : List (String × Bytes)) (k : String)
    (h : lookupEntries l k = none) :
    l.filter (fun e => e.1 ≠ k) = l := by
  induction l with
  | nil => rfl
  | cons e rest ih =>
    by_cases he : e.1 = k
    · simp [lookupEntries, he] at h
    · simp only [lookupEntries, he, if_false] at h
      simp only [List.filter_cons]
      rw [if_pos (by simp [he]), ih h]

theorem mem_of_lookupEntries_eq_some {l : List (String × Bytes)} {k : String}
    {v : Bytes} (h : lookupEntries l k = some v) : (k, v) ∈ l := by
  induction l with
  | nil => simp [lookupEntries] at h
  | cons e rest ih =>
    by_cases he : e.1 = k
    · simp only [lookupEntries, he, if_true, Option.some.injEq] at h
      have he2 : e = (k, v) := by
        cases e
        simp_all
      rw [← he2]
      exact List.mem_cons_self _ _
    · simp only [lookupEntries, he, if_false] at h
      exact List.mem_cons_of_mem _ (ih h)

theorem lookupEntries_eq_some_of_mem {l : List (String × Bytes)} {k : String}
    {v : Bytes} (hnd : (l.map Prod.fst).Nodup) (h : (k, v) ∈ l) :
    lookupEntries l k = some v := by
  induction l with
  | nil => simp at h
  | cons e rest ih =>
    simp only [List.map_cons, List.nodup_cons] at hnd
    rcases List.mem_cons.mp h with h | h
    · rw [← h]
      simp [lookupEntries]
    · have hk : e.1 ≠ k := by
        intro hek
        exact hnd.1 (hek ▸ (List.mem_map_of_mem Prod.fst h))
      simp only [lookupEntries, hk, if_false]
      exact ih hnd.2 h

theorem readVal_setBucket_self (s : Store) (ns k : String) (b : Bucket) :
    readVal (s.setBucket ns b) ns k = b.get k := by
  unfold readVal Store.bucket Store.setBucket
  rw [lookupBuckets_setBuckets_self]
  rfl

theorem readVal_setBucket_other (s : Store) (ns ns' k : String) (b : Bucket)
    (hne : ns' ≠ ns) :
    readVal (s.setBucket ns b) ns' k = readVal s ns' k := by
  unfold readVal Store.bucket Store.setBucket
  rw [lookupBuckets_setBuckets_ne _ _ _ _ hne]

theorem Bucket.put_ok {b : Bucket} {k : String} {v : Bytes} {b' : Bucket}
    (h : b.put k v = .ok b') : k ≠ "" ∧ b' = ⟨putEntries b.entries k v⟩ := by
  unfold Bucket.put at h
  by_cases hk : k = ""
  · simp [hk] at h
  · simp only [hk, if_false, Except.ok.injEq] at h
    exact ⟨hk, h.symm⟩

theorem writeFunc_ok {ns k : String} {v : Bytes} {s s' : Store}
    (h : writeFunc ns k v s = .ok s') :
    ns ≠ "" ∧ k ≠ "" ∧
      s' = s.setBucket ns ⟨putEntries ((s.bucket ns).getD ⟨[]⟩).entries k v⟩ := by
  unfold writeFunc at h
  by_cases hns : ns = ""
  · simp [hns] at h
  · simp only [hns, if_false] at h
    cases hput : ((s.bucket ns).getD ⟨[]⟩).put k v with
    | error e => rw [hput] at h; cases h
    | ok b' =>
      rw [hput] at h
      obtain ⟨hk, hb'⟩ := Bucket.put_ok hput
      simp only [Except.ok.injEq] at h
      exact ⟨hns, hk, by rw [← h, hb']⟩

theorem writeFunc_ok_read_same {ns k : String} {v : Bytes} {s s' : Store}
    (h : writeFunc ns k v s = .ok s') : readVal s' ns k = some v := by
  obtain ⟨_, _, hs'⟩ := writeFunc_ok h
  rw [hs', readVal_setBucket_self]
  unfold Bucket.get
  exact lookupEntries_putEntries_self _ _ _

theorem readVal_eq_lookup_getD (s : Store) (ns k : String) :
    readVal s ns k = lookupEntries ((s.bucket ns).getD ⟨[]⟩).entries k := by
  unfold readVal
  cases hb : s.bucket ns with
  | none => rfl
  | some b => rfl

theorem writeFunc_ok_read_other {ns k ns' k' : String} {v : Bytes}
    {s s' : Store} (hne : (ns', k') ≠ (ns, k))
    (h : writeFunc ns k v s = .ok s') :
    readVal s' ns' k' = readVal s ns' k' := by
  obtain ⟨_, _, hs'⟩ := writeFunc_ok h
  by_cases hn : ns' = ns
  · subst hn
    have hkk : k' ≠ k := fun hkk => hne (by rw [hkk])
    rw [hs', readVal_setBucket_self]
    unfold Bucket.get
    rw [lookupEntries_putEntries_ne _ _ _ _ hkk, readVal_eq_lookup_getD]
  · rw [hs', readVal_setBucket_other _ _ _ _ _ hn]

theorem updateTx_ok {s : Store} {ns key : String} {u : Updater} {data : Bytes}
    {s' : Store} (h : updateTx s ns key u = .ok (data, s')) :
    ∃ b v, s.bucket ns = some b ∧ b.get key = some v ∧
      u.validate v = .ok () ∧ u.update v = .ok data ∧
      s' = s.setBucket ns ⟨putEntries b.entries key data⟩ := by
  unfold updateTx at h
  split at h
  · cases h
  next b hb =>
    split at h
    · cases h
    next v hv =>
      split at h
      · cases h
      next uval hval =>
        split at h
        · cases h
        next d hupd =>
          split at h
          · cases h
          next b' hput =>
            obtain ⟨hk, hb'⟩ := Bucket.put_ok hput
            simp only [Except.ok.injEq, Prod.mk.injEq] at h
            obtain ⟨hd, hs'⟩ := h
            subst hd
            exact ⟨b, v, hb, hv, by cases uval; exact hval, hupd,
              by rw [← hs', hb']⟩

theorem updateTx_ok_read_same {s : Store} {ns key : String} {u : Updater}
    {data : Bytes} {s' : Store} (h : updateTx s ns key u = .ok (data, s')) :
    readVal s' ns key = some data := by
  obtain ⟨b, v, _, _, _, _, hs'⟩ := updateTx_ok h
  rw [hs', readVal_setBucket_self]
  unfold Bucket.get
  exact lookupEntries_putEntries_self _ _ _

theorem updateTx_ok_read_other {s : Store} {ns key ns' k' : String}
    {u : Updater} {data : Bytes} {s' : Store}
    (hne : (ns', k') ≠ (ns, key)) (h : updateTx s ns key u = .ok (data, s')) :
    readVal s' ns' k' = readVal s ns' k' := by
  obtain ⟨b, v, hb, _, _, _, hs'⟩ := updateTx_ok h
  by_cases hn : ns' = ns
  · subst hn
    have hkk : k' ≠ key := fun hkk => hne (by rw [hkk])
    rw [hs', readVal_setBucket_self]
    unfold Bucket.get
    rw [lookupEntries_putEntries_ne _ _ _ _ hkk]
    unfold readVal
    rw [hb]
    rfl
  · rw [hs', readVal_setBucket_other _ _ _ _ _ hn]

theorem updateTx_ok_source {s : Store} {ns key : String} {u : Updater}
    {data : Bytes} {s' : Store} (h : updateTx s ns key u = .ok (data, s')) :
    ∃ v, readVal s ns key = some v ∧ u.validate v = .ok () ∧
      u.update v = .ok data := by
  obtain ⟨b, v, hb, hv, hval, hupd, _⟩ := updateTx_ok h
  exact ⟨v, by unfold readVal; rw [hb]; exact hv, hval, hupd⟩

theorem updateTx_error_of_absent {s : Store} {ns key : String} {u : Updater}
    (h : readVal s ns key = none) : ∃ e, updateTx s ns key u = .error e := by
  cases hb : s.bucket ns with
  | none =>
    refine ⟨"namespace<" ++ ns ++ "> does not exist", ?_⟩
    simp only [updateTx, hb]
  | some b =>
    have hv : b.get key = none := by
      unfold readVal at h
      rw [hb] at h
      exact h
    refine ⟨"key not found " ++ key, ?_⟩
    simp only [updateTx, hb, hv]

theorem mem_of_lookupBuckets_eq_some {l : List (String × Bucket)} {n : String}
    {b : Bucket} (h : lookupBuckets l n = some b) : (n, b) ∈ l := by
  induction l with
  | nil => simp [lookupBuckets] at h
  | cons e rest ih =>
    by_cases he : e.1 = n
    · simp only [lookupBuckets, he, if_true, Option.some.injEq] at h
      have he2 : e = (n, b) := by
        cases e
        simp_all
      rw [← he2]
      exact List.mem_cons_self _ _
    · simp only [lookupBuckets, he, if_false] at h
      exact List.mem_cons_of_mem _ (ih h)
theorem writeManyLoop_ok_preserve {nss ks : List String} {vs : List Bytes}
    {s s' : Store} {ns' k' : String}
    (h : writeManyLoop nss ks vs s = .ok s')
    (hnotin : (ns', k') ∉ nss.zip ks) :
    readVal s' ns' k' = readVal s ns' k' := by
  induction nss generalizing ks vs s with
  | nil =>
    simp only [writeManyLoop, Outcome.ok.injEq] at h
    rw [h]
  | cons ns nss ih =>
    cases ks with
    | nil => cases h
    | cons k ks =>
      cases vs with
      | nil => cases h
      | cons v vs =>
        simp only [writeManyLoop] at h
        split at h
        · cases h
        next s1 hw =>
          have hne : (ns', k') ≠ (ns, k) := by
            intro he
            apply hnotin
            rw [List.zip_cons_cons, he]
            exact List.mem_cons_self _ _
          have hnotin' : (ns', k') ∉ nss.zip ks := by
            intro hm
            apply hnotin
            rw [List.zip_cons_cons]
            exact List.mem_cons_of_mem _ hm
          rw [ih h hnotin', writeFunc_ok_read_other hne hw]

theorem writeManyLoop_spec (nss ks : List String) (vs : List Bytes) (s : Store)
    (h1 : nss.length = ks.length) (h2 : nss.length = vs.length)
    (hnd : (nss.zip ks).Nodup) :
    (∃ s', writeManyLoop nss ks vs s = .ok s' ∧
        ∀ p ∈ (nss.zip ks).zip vs, readVal s' p.1.1 p.1.2 = some p.2) ∨
    (∃ e, writeManyLoop nss ks vs s = .err e) := by
  induction nss generalizing ks vs s with
  | nil =>
    left
    refine ⟨s, rfl, ?_⟩
    intro p hp
    simp at hp
  | cons ns nss ih =>
    cases ks with
    | nil => simp at h1
    | cons k ks =>
      cases vs with
      | nil => simp at h2
      | cons v vs =>
        rw [List.zip_cons_cons, List.nodup_cons] at hnd
        cases hw : writeFunc ns k v s with
        | error e =>
          right
          refine ⟨e, ?_⟩
          simp only [writeManyLoop, hw]
        | ok s1 =>
          rcases ih ks vs s1 (by simpa using h1) (by simpa using h2) hnd.2 with
            ⟨s', hok, hreads⟩ | ⟨e, herr⟩
          · left
            refine ⟨s', ?_, ?_⟩
            · simp only [writeManyLoop, hw]
              exact hok
            · intro p hp
              rw [List.zip_cons_cons, List.zip_cons_cons] at hp
              rcases List.mem_cons.mp hp with hp | hp
              · rw [hp]
                rw [writeManyLoop_ok_preserve hok hnd.1]
                exact writeFunc_ok_read_same hw
              · exact hreads p hp
          · right
            refine ⟨e, ?_⟩
            simp only [writeManyLoop, hw]
            exact herr

end SSIStorage

namespace SSIStatusList

theorem issueOne_ok {a : AllocatorState} {r : IssueRequest}
    {c : IssuedCredential} {a' : AllocatorState}
    (h : issueOne a r = .ok (c, a')) :
    ∃ hlt : a.cursor < a.permutation.length,
      c = ⟨r.issuer, r.schema, a.permutation.get ⟨a.cursor, hlt⟩⟩ ∧
      a' = ⟨a.permutation, a.cursor + 1⟩ := by
  unfold issueOne at h
  split at h
  · cases h
  next i hi =>
    split at h
    · cases h
    next a1 hinc =>
      injection h with h2
      rw [Prod.mk.injEq] at h2
      obtain ⟨hc2, ha2⟩ := h2
      unfold increment at hinc
      split at hinc
      · cases hinc
      next =>
        injection hinc with h3
        rw [nextIndex, List.getElem?_eq_some] at hi
        obtain ⟨hlt, hval⟩ := hi
        refine ⟨hlt, ?_, ?_⟩
        · rw [← hc2, ← hval]
          rfl
        · rw [← ha2, ← h3]

theorem issueAll_ok {a : AllocatorState} {reqs : List IssueRequest}
    {creds : List IssuedCredential} {a' : AllocatorState}
    (h : issueAll a reqs = .ok (creds, a')) :
    creds.map (fun c => c.revocationIndex) =
      (a.permutation.drop a.cursor).take reqs.length := by
  induction reqs generalizing a creds a' with
  | nil =>
    simp only [issueAll, Except.ok.injEq, Prod.mk.injEq] at h
    rw [← h.1]
    simp
  | cons r rs ih =>
    simp only [issueAll] at h
    split at h
    · cases h
    next c a1 hone =>
      split at h
      · cases h
      next cs a2 hall =>
        simp only [Except.ok.injEq, Prod.mk.injEq] at h
        obtain ⟨hcreds, ha2⟩ := h
        obtain ⟨hlt, hc, ha1⟩ := issueOne_ok hone
        rw [ha1] at hall
        rw [← hcreds, List.map_cons, ih hall]
        simp only [List.length_cons]
        rw [List.drop_eq_getElem_cons hlt, List.take_succ_cons, hc]
        rfl

end SSIStatusList

namespace SSIStorage

theorem Read_eq_ok_readVal (s : Store) (ns key : String) :
    Read s ns key = .ok (readVal s ns key) := by
  unfold Read readVal
  cases hb : s.bucket ns with
  | none => rfl
  | some b => rfl

/-- C1: `Execute` is transactional: when the business-logic function returns
an error, `Execute` returns an error (wrapping it) and the store is exactly
the store before the call — no write made inside the transaction survives
the rollback; when the function succeeds, the store it produced is committed
and its result is returned. -/
theorem execute_transactional {α : Type} (s : Store) (fn : BusinessLogicFunc α) :
    (∀ e, fn s = .error e →
      Execute s fn = (.error ("executing business logic func: " ++ e), s)) ∧
    (∀ r s', fn s = .ok (r, s') → Execute s fn = (.ok r, s')) := by
  constructor
  · intro e he
    simp only [Execute, he]
  · intro r s' hok
    simp only [Execute, hok]

theorem execute_transactional_witness :
    Execute emptyStore (fun _ => (.error "boom" : Except String (Unit × Store)))
        = (.error ("executing business logic func: " ++ "boom"), emptyStore) ∧
    Execute emptyStore (fun st => (.ok ((), st) : Except String (Unit × Store)))
        = (.ok (), emptyStore) :=
  ⟨(execute_transactional emptyStore _).1 "boom" rfl,
    (execute_transactional emptyStore _).2 () emptyStore rfl⟩

/-- C3: `Read` on an absent namespace, or an absent key of an existing
namespace, returns a null value and no error. -/
theorem read_absent_returns_null (s : Store) (ns key : String)
    (h : s.bucket ns = none ∨ ∃ b, s.bucket ns = some b ∧ b.get key = none) :
    Read s ns key = .ok none := by
  rw [Read_eq_ok_readVal]
  rcases h with h | ⟨b, hb, hk⟩
  · unfold readVal
    rw [h]
    rfl
  · unfold readVal
    rw [hb]
    simpa using hk

theorem read_absent_returns_null_witness :
    Read emptyStore "credential" "id1" = .ok none :=
  read_absent_returns_null emptyStore "credential" "id1" (Or.inl rfl)

/-- C4 counterexample: the claim says `Delete` on an absent namespace is a
no-op returning no error, but the code returns an error in that case. -/
theorem delete_absent_namespace_counterexample :
    Delete emptyStore "credential" "k" =
      (.error "namespace<credential> does not exist", emptyStore) ∧
    (Delete emptyStore "credential" "k").1 ≠ .ok () := by
  refine ⟨rfl, ?_⟩
  intro hcontr
  exact Except.noConfusion hcontr

/-- C4 (amended): `Delete` with an absent *namespace* returns an error and
leaves the store unchanged; `Delete` of an absent *key* within an existing
namespace is a no-op that returns no error and leaves the store unchanged. -/
theorem delete_absent_amended (s : Store) (ns key : String) :
    (s.bucket ns = none →
      Delete s ns key = (.error ("namespace<" ++ ns ++ "> does not exist"), s)) ∧
    (∀ b, s.bucket ns = some b → b.get key = none →
      Delete s ns key = (.ok (), s)) := by
  constructor
  · intro h
    simp only [Delete, h]
  · intro b hb hk
    simp only [Delete, hb]
    have hdel : b.del key = b := by
      unfold Bucket.del
      rw [filter_ne_eq_self _ _ hk]
    rw [hdel]
    have hset : s.setBucket ns b = s := by
      unfold Store.setBucket
      rw [setBuckets_eq_self _ _ _ hb]
    rw [hset]

theorem delete_absent_amended_witness :
    Delete ⟨[("credential", ⟨[("x", [1])]⟩)]⟩ "credential" "y" =
      (.ok (), ⟨[("credential", ⟨[("x", [1])]⟩)]⟩) :=
  (delete_absent_amended ⟨[("credential", ⟨[("x", [1])]⟩)]⟩ "credential" "y").2
    ⟨[("x", [1])]⟩ rfl rfl

/-- C5: after a successful `Write`, `Read` of the same namespace and key
returns the written value — also when the namespace did not exist before,
since writes create their bucket via `CreateBucketIfNotExists`. -/
theorem write_then_read (s : Store) (ns key : String) (v : Bytes) (s' : Store)
    (h : Write s ns key v = (.ok (), s')) :
    Read s' ns key = .ok (some v) := by
  unfold Write at h
  split at h
  · simp at h
  next s1 hw =>
    rw [Prod.mk.injEq] at h
    rw [Read_eq_ok_readVal, ← h.2]
    rw [writeFunc_ok_read_same hw]

theorem write_then_read_witness :
    Read (⟨[("credential", ⟨[("id1", [7])]⟩)]⟩ : Store) "credential" "id1"
      = .ok (some [7]) :=
  write_then_read emptyStore "credential" "id1" [7] _ rfl

end SSIStorage

namespace SSIStorage

/-- C2 counterexample: on a batch with duplicate (namespace, key) pairs the
call returns nil but the key holds the value of the last occurrence, not
`values[i]` for every `i` as the claim states (`values[0]` here is `[0]`,
yet the key reads back `[1]`). -/
theorem writeMany_duplicate_counterexample :
    WriteMany emptyStore ["a", "a"] ["k", "k"] [[0], [1]]
        = (.ok (), ⟨[("a", ⟨[("k", [1])]⟩)]⟩) ∧
    readVal ⟨[("a", ⟨[("k", [1])]⟩)]⟩ "a" "k" ≠ some [0] := by
  refine ⟨by decide, by decide⟩

/-- C2 (amended): for equal-length slices whose (namespace, key) pairs are
pairwise distinct, `WriteMany` is an atomic batch: either it returns nil and
afterwards every `keys[i]` in `namespaces[i]` maps to `values[i]`, or it
returns an error and the store is unchanged — never a proper subset of the
batch.  (With duplicate pairs the later write wins; see the
counterexample.) -/
theorem writeMany_atomic_batch (s : Store) (nss ks : List String)
    (vs : List Bytes) (h1 : nss.length = ks.length)
    (h2 : nss.length = vs.length) (hnd : (nss.zip ks).Nodup) :
    (∃ s', WriteMany s nss ks vs = (.ok (), s') ∧
        ∀ i (hi : i < nss.length) (hk : i < ks.length) (hv : i < vs.length),
          readVal s' (nss.get ⟨i, hi⟩) (ks.get ⟨i, hk⟩)
            = some (vs.get ⟨i, hv⟩)) ∨
    (∃ e, WriteMany s nss ks vs = (.err e, s)) := by
  have hguard : ¬ writeManyLengthMismatch nss ks vs := fun hg => hg.1 h1
  rcases writeManyLoop_spec nss ks vs s h1 h2 hnd with
    ⟨s', hok, hreads⟩ | ⟨e, herr⟩
  · left
    refine ⟨s', ?_, ?_⟩
    · simp only [WriteMany, hguard, if_false, hok]
    · intro i hi hk hv
      have hlen : i < ((nss.zip ks).zip vs).length := by
        simp only [List.length_zip]
        omega
      have hmem := List.get_mem ((nss.zip ks).zip vs) i hlen
      have hgets : ((nss.zip ks).zip vs).get ⟨i, hlen⟩
          = ((nss.get ⟨i, hi⟩, ks.get ⟨i, hk⟩), vs.get ⟨i, hv⟩) := by
        simp [List.getElem_zip]
      rw [hgets] at hmem
      exact hreads _ hmem
  · right
    refine ⟨e, ?_⟩
    simp only [WriteMany, hguard, if_false, herr]

theorem writeMany_atomic_batch_witness :
    (∃ s', WriteMany emptyStore ["a"] ["k"] [[1]] = (.ok (), s') ∧
        ∀ i (hi : i < (["a"] : List String).length)
          (hk : i < (["k"] : List String).length)
          (hv : i < ([[1]] : List Bytes).length),
          readVal s' ((["a"] : List String).get ⟨i, hi⟩)
            ((["k"] : List String).get ⟨i, hk⟩)
            = some (([[1]] : List Bytes).get ⟨i, hv⟩)) ∨
    (∃ e, WriteMany emptyStore ["a"] ["k"] [[1]] = (.err e, emptyStore)) :=
  writeMany_atomic_batch emptyStore ["a"] ["k"] [[1]] rfl rfl (by decide)

/-- C9: the `WriteMany` length guard is the conjunction of the two
inequalities, so a call with `len(namespaces) == len(keys)` is never
rejected by it; on the concrete input with one namespace and key but no
values, the guard passes and the loop's indexing of `values[0]` is out of
bounds — a Go runtime panic. -/
theorem writeMany_guard_unsound :
    (∀ (nss ks : List String) (vs : List Bytes),
      nss.length = ks.length → ¬ writeManyLengthMismatch nss ks vs) ∧
    ((["a"] : List String).length = (["k"] : List String).length ∧
      ([] : List Bytes).length < (["a"] : List String).length ∧
      WriteMany emptyStore ["a"] ["k"] [] = (.panicked, emptyStore)) :=
  ⟨fun _ _ _ h hg => hg.1 h, by decide, by decide, by decide⟩

theorem writeMany_guard_unsound_witness :
    ¬ writeManyLengthMismatch ["x"] ["y"] [] :=
  writeMany_guard_unsound.1 ["x"] ["y"] [] rfl

end SSIStorage

namespace SSIStorage

/-- C6: `ReadPrefix` returns, with no error, a mapping holding exactly the
keys of the namespace that start with the prefix, each bound to its stored
value; when the namespace is absent the mapping is empty. -/
theorem readPrefix_spec (s : Store) (ns p : String) (hwf : s.WF) :
    ∃ m, ReadPrefix s ns p = .ok m ∧
      ∀ k v, ((k, v) ∈ m ↔
        (p.isPrefixOf k = true ∧ readVal s ns k = some v)) := by
  cases hb : s.bucket ns with
  | none =>
    refine ⟨[], by simp only [ReadPrefix, hb], ?_⟩
    intro k v
    simp only [List.not_mem_nil, false_iff]
    rintro ⟨_, hr⟩
    unfold readVal at hr
    rw [hb] at hr
    cases hr
  | some b =>
    refine ⟨b.entries.filter (fun e => p.isPrefixOf e.1), ?_, ?_⟩
    · simp only [ReadPrefix, hb]
    intro k v
    have hnd : (b.entries.map Prod.fst).Nodup :=
      hwf (ns, b) (mem_of_lookupBuckets_eq_some hb)
    constructor
    · intro hm
      rw [List.mem_filter] at hm
      obtain ⟨hmem, hpref⟩ := hm
      refine ⟨hpref, ?_⟩
      unfold readVal
      rw [hb]
      simpa [Bucket.get] using lookupEntries_eq_some_of_mem hnd hmem
    · rintro ⟨hpref, hr⟩
      unfold readVal at hr
      rw [hb] at hr
      rw [List.mem_filter]
      exact ⟨mem_of_lookupEntries_eq_some (by simpa [Bucket.get] using hr),
        hpref⟩

theorem readPrefix_spec_witness :
    ∃ m, ReadPrefix (⟨[("credential",
          ⟨[("id1-is:a", [1]), ("zz", [2])]⟩)]⟩ : Store) "credential" "id1"
        = .ok m ∧
      ∀ k v, ((k, v) ∈ m ↔
        (("id1").isPrefixOf k = true ∧
          readVal ⟨[("credential", ⟨[("id1-is:a", [1]), ("zz", [2])]⟩)]⟩
            "credential" k = some v)) :=
  readPrefix_spec _ "credential" "id1" (by decide)

/-- C10: unlike `Write`, the update path does not auto-create storage: when
the namespace does not exist or no value is stored at the key, both `Update`
and `UpdateValueAndOperation` return an error and leave the store
unchanged. -/
theorem update_no_autocreate (s : Store) (ns key : String) (u : Updater)
    (opNs opKey : String) (opU : Bytes → Updater)
    (h : readVal s ns key = none) :
    (∃ e, Update s ns key u = (none, .error e, s)) ∧
    (∃ e, UpdateValueAndOperation s ns key u opNs opKey opU
        = (none, none, .error e, s)) := by
  obtain ⟨e, he⟩ := updateTx_error_of_absent (u := u) h
  constructor
  · exact ⟨e, by simp only [Update, he]⟩
  · exact ⟨e, by simp only [UpdateValueAndOperation, he]⟩

theorem update_no_autocreate_witness :
    (∃ e, Update emptyStore "credential" "id1" idUpdater
        = (none, .error e, emptyStore)) ∧
    (∃ e, UpdateValueAndOperation emptyStore "credential" "id1" idUpdater
        "operation" "op1" (fun _ => idUpdater)
        = (none, none, .error e, emptyStore)) :=
  update_no_autocreate emptyStore "credential" "id1" idUpdater
    "operation" "op1" (fun _ => idUpdater) rfl

/-- C7: `UpdateValueAndOperation` runs both steps in one transaction: on
success the first target holds the bytes the updater produced from its
previous blob and the op target holds the bytes derived from them by the op
updater; if either step fails, an error is returned and the whole
transaction rolls back, so neither target is modified. -/
theorem updateValueAndOperation_transactional (s : Store) (ns key : String)
    (u : Updater) (opNs opKey : String) (opU : Bytes → Updater) :
    (∀ r1 r2 e s', UpdateValueAndOperation s ns key u opNs opKey opU
        = (r1, r2, .error e, s') → s' = s) ∧
    (∀ first op s2, UpdateValueAndOperation s ns key u opNs opKey opU
        = (some first, some op, .ok (), s2) →
      (∃ v0, readVal s ns key = some v0 ∧ u.update v0 = .ok first) ∧
      (∃ w0, (opU first).update w0 = .ok op) ∧
      readVal s2 opNs opKey = some op ∧
      ((ns, key) ≠ (opNs, opKey) → readVal s2 ns key = some first)) := by
  constructor
  · intro r1 r2 e s' h
    unfold UpdateValueAndOperation at h
    split at h
    · exact (congrArg (fun t => t.2.2.2) h).symm
    next first' s1 h1 =>
      split at h
      · exact (congrArg (fun t => t.2.2.2) h).symm
      next op' s2' h2 =>
        exact Except.noConfusion (congrArg (fun t => t.2.2.1) h)
  · intro first op s2 h
    unfold UpdateValueAndOperation at h
    split at h
    · exact Option.noConfusion (congrArg (fun t => t.1) h)
    next first' s1 h1 =>
      split at h
      · exact Option.noConfusion (congrArg (fun t => t.2.1) h)
      next op' s2' h2 =>
        have hf : first' = first := by
          simpa using congrArg (fun t => t.1) h
        have ho : op' = op := by
          simpa using congrArg (fun t => t.2.1) h
        have hs : s2' = s2 := congrArg (fun t => t.2.2.2) h
        subst hf
        subst ho
        subst hs
        refine ⟨?_, ?_, updateTx_ok_read_same h2, ?_⟩
        · obtain ⟨v0, hv0, _, hupd⟩ := updateTx_ok_source h1
          exact ⟨v0, hv0, hupd⟩
        · obtain ⟨w0, _, _, hupd⟩ := updateTx_ok_source h2
          exact ⟨w0, hupd⟩
        · intro hne
          rw [updateTx_ok_read_other hne h2]
          exact updateTx_ok_read_same h1

theorem updateValueAndOperation_witness :
    (∃ v0, readVal ⟨[("n", ⟨[("k", [1])]⟩), ("m", ⟨[("j", [2])]⟩)]⟩ "n" "k"
        = some v0 ∧ idUpdater.update v0 = .ok [1]) ∧
    (∃ w0, ((fun _ => idUpdater) ([1] : Bytes)).update w0 = .ok [2]) ∧
    readVal ⟨[("n", ⟨[("k", [1])]⟩), ("m", ⟨[("j", [2])]⟩)]⟩ "m" "j"
        = some [2] ∧
    ((("n" : String), ("k" : String)) ≠ (("m" : String), ("j" : String)) →
      readVal ⟨[("n", ⟨[("k", [1])]⟩), ("m", ⟨[("j", [2])]⟩)]⟩ "n" "k"
        = some [1]) :=
  (updateValueAndOperation_transactional
      ⟨[("n", ⟨[("k", [1])]⟩), ("m", ⟨[("j", [2])]⟩)]⟩ "n" "k" idUpdater
      "m" "j" (fun _ => idUpdater)).2 [1] [2]
    ⟨[("n", ⟨[("k", [1])]⟩), ("m", ⟨[("j", [2])]⟩)]⟩ rfl

end SSIStorage

namespace SSIStatusList

/-- C8 (modelled from the spec): every sequence of issue operations that all
succeed assigns every issued revocable credential a revocation index
distinct from that of every other credential of the same (issuer, schema)
status-list VC — the allocator hands out positions of a duplicate-free
permutation at strictly increasing cursor values, so indices are globally
unique, hence unique within each (issuer, schema) pair. -/
theorem issue_unique_revocation_indices (a : AllocatorState)
    (reqs : List IssueRequest) (creds : List IssuedCredential)
    (a' : AllocatorState) (hperm : a.permutation.Nodup)
    (h : issueAll a reqs = .ok (creds, a')) :
    ∀ i j (hi : i < creds.length) (hj : j < creds.length), i ≠ j →
      (creds.get ⟨i, hi⟩).issuer = (creds.get ⟨j, hj⟩).issuer →
      (creds.get ⟨i, hi⟩).schema = (creds.get ⟨j, hj⟩).schema →
      (creds.get ⟨i, hi⟩).revocationIndex
        ≠ (creds.get ⟨j, hj⟩).revocationIndex := by
  intro i j hi hj hne _ _ hcontr
  have hnd : (creds.map (fun c => c.revocationIndex)).Nodup := by
    rw [issueAll_ok h]
    exact (hperm.sublist (List.drop_sublist _ _)).sublist
      (List.take_sublist _ _)
  have hgi : (creds.map (fun c => c.revocationIndex)).get ⟨i, by simpa using hi⟩
      = (creds.map (fun c => c.revocationIndex)).get ⟨j, by simpa using hj⟩ := by
    simp only [List.getElem_map, List.get_eq_getElem]
    exact hcontr
  have hij := hnd.get_inj_iff.mp hgi
  exact hne (by simpa using hij)

theorem issue_unique_revocation_indices_witness :
    (⟨"did:ex:a", "sch1", 2⟩ : IssuedCredential).revocationIndex ≠
      (⟨"did:ex:a", "sch1", 1⟩ : IssuedCredential).revocationIndex := by
  have h := issue_unique_revocation_indices ⟨[2, 1], 0⟩
    [⟨"did:ex:a", "sch1"⟩, ⟨"did:ex:a", "sch1"⟩]
    [⟨"did:ex:a", "sch1", 2⟩, ⟨"did:ex:a", "sch1", 1⟩] ⟨[2, 1], 2⟩
    (by decide) rfl 0 1 (by decide) (by decide) (by decide) rfl rfl
  exact h

end SSIStatusList
